import Mathlib

set_option maxHeartbeats 1000000
set_option maxRecDepth 8000

/-!
Verification of the repository data source and template renderer of
`src/js/app.js` (GitHub pages site).  The development shallowly embeds the
script's core logic: JSON serialisation (`JSON.stringify` / `JSON.parse` as
used by the session cache), the `filterWithPages` filter-and-sort step, the
callback/event behaviour of `getRepos` and `fetchUserRepos`, and the
mustache-like template substitution of `_render`.
-/

namespace GitHubPages

/-- JSON values as handled by `JSON.parse` / `JSON.stringify` in
`src/js/app.js`.  Numbers are modelled as integers: every numeric field of
the GitHub repository records this code meets (ids, counts) is an integer;
fractional floating-point values are out of scope. -/
inductive Json where
  | null
  | bool (b : Bool)
  | num (n : Int)
  | str (s : String)
  | arr (elems : List Json)
  | obj (fields : List (String × Json))

/-- Decimal digit characters, used to model JavaScript number-to-string
conversion. -/
def dChar : Nat → Char
  | 0 => '0' | 1 => '1' | 2 => '2' | 3 => '3' | 4 => '4'
  | 5 => '5' | 6 => '6' | 7 => '7' | 8 => '8' | _ => '9'

/-- Numeric value of a decimal digit character. -/
def charVal (c : Char) : Nat := c.toNat - 48

/-- Most-significant-first decimal digits of a positive natural number,
fuel-indexed (the fuel only needs to dominate the digit count; callers pass
the number itself). -/
def natDigsAux : Nat → Nat → List Char
  | 0, _ => []
  | _ + 1, 0 => []
  | fuel + 1, n => natDigsAux fuel (n / 10) ++ [dChar (n % 10)]

/-- Most-significant-first decimal digits of a natural number, as produced
by JavaScript number-to-string conversion. -/
def natDigs (n : Nat) : List Char :=
  if n = 0 then ['0'] else natDigsAux n n

/-- Decimal rendering of an integer (JavaScript `String(n)` and the number
production of `JSON.stringify`). -/
def encInt (i : Int) : List Char :=
  if i < 0 then '-' :: natDigs i.natAbs else natDigs i.natAbs

/-- Escaping of a single character inside a JSON string literal.  The two
characters that must be escaped are `"` and `\`; `JSON.stringify` also
escapes control characters, which the repository's data never contains. -/
def escChar (c : Char) : List Char :=
  if c = '"' then ['\\', '"'] else if c = '\\' then ['\\', '\\'] else [c]

/-- Escaped character sequence of a character list. -/
def escChars (l : List Char) : List Char := (l.map escChar).flatten

/-- Escaped character sequence of a string body. -/
def escStr (s : String) : List Char := escChars s.data

/-- Characters of the literal `null`. -/
def litNull : List Char := "null".data

/-- Characters of the literal `true`. -/
def litTrue : List Char := "true".data

/-- Characters of the literal `false`. -/
def litFalse : List Char := "false".data

mutual

/-- Character stream produced by `JSON.stringify` (no insignificant
whitespace, exactly as the JavaScript builtin emits). -/
def encJson : Json → List Char
  | .null => litNull
  | .bool true => litTrue
  | .bool false => litFalse
  | .num n => encInt n
  | .str s => '"' :: (escStr s ++ ['"'])
  | .arr es => '[' :: (encElems es ++ [']'])
  | .obj fs => '\x7b' :: (encFields fs ++ ['\x7d'])

/-- Comma-separated encoding of array elements. -/
def encElems : List Json → List Char
  | [] => []
  | [e] => encJson e
  | e :: es => encJson e ++ ',' :: encElems es

/-- Encoding of a single `"key":value` member. -/
def encField (kv : String × Json) : List Char :=
  '"' :: (escStr kv.1 ++ '"' :: ':' :: encJson kv.2)

/-- Comma-separated encoding of object members. -/
def encFields : List (String × Json) → List Char
  | [] => []
  | [kv] => encField kv
  | kv :: fs => encField kv ++ ',' :: encFields fs

end

/-- JSON serialisation `JSON.stringify`, as used at `app.js:65` to write the
filtered repository list into `sessionStorage`. -/
def Json.stringify (j : Json) : String := ⟨encJson j⟩

/-- Greedy consumption of leading decimal digits with an accumulator,
modelling the digit run of a JSON number token. -/
def parseDigits : List Char → Nat → Nat × List Char
  | c :: cs, acc => if c.isDigit then parseDigits cs (acc * 10 + charVal c) else (acc, c :: cs)
  | [], acc => (acc, [])

/-- Parse a (non-negative) number token: at least one leading digit. -/
def parseNumTok : List Char → Option (Nat × List Char)
  | c :: r => if c.isDigit then some (parseDigits (c :: r) 0) else none
  | [] => none

/-- Unescaping of a character after a backslash in a JSON string literal
(restricted to the escapes `JSON.stringify` produces on this data). -/
def unesc (c : Char) : Option Char :=
  if c = '"' then some '"' else if c = '\\' then some '\\' else none

/-- Parse the body of a JSON string literal (the opening quote already
consumed), returning the unescaped characters and the input after the
closing quote.  Fuel-indexed; callers pass the input length plus one. -/
def parseStrChars : Nat → List Char → Option (List Char × List Char)
  | 0, _ => none
  | _ + 1, [] => none
  | fuel + 1, c :: rest =>
    if c = '"' then some ([], rest)
    else if c = '\\' then
      match rest with
      | [] => none
      | e :: rest2 =>
        match unesc e with
        | some u => (parseStrChars fuel rest2).map fun p => (u :: p.1, p.2)
        | none => none
    else (parseStrChars fuel rest).map fun p => (c :: p.1, p.2)

/-- Expect a literal character sequence at the head of the input. -/
def expectLit : List Char → List Char → Option (List Char)
  | [], l => some l
  | p :: ps, c :: l => if c = p then expectLit ps l else none
  | _ :: _, [] => none

mutual

/-- Recursive-descent JSON value parser (`JSON.parse`), fuel-indexed.  The
accepted grammar is the one `JSON.stringify` emits (no insignificant
whitespace, integer numbers, quote/backslash escapes), which covers every
string this program ever parses from its own cache and the claims at
hand. -/
def parseVal : Nat → List Char → Option (Json × List Char)
  | 0, _ => none
  | fuel + 1, l =>
    match l with
    | [] => none
    | c :: r =>
      if c = 'n' then (expectLit ['u', 'l', 'l'] r).map fun rest => (.null, rest)
      else if c = 't' then (expectLit ['r', 'u', 'e'] r).map fun rest => (.bool true, rest)
      else if c = 'f' then (expectLit ['a', 'l', 's', 'e'] r).map fun rest => (.bool false, rest)
      else if c = '"' then (parseStrChars (r.length + 1) r).map fun p => (.str ⟨p.1⟩, p.2)
      else if c = '[' then
        match r with
        | ']' :: r2 => some (.arr [], r2)
        | _ => (parseElems fuel r).map fun p => (.arr p.1, p.2)
      else if c = '\x7b' then
        match r with
        | '\x7d' :: r2 => some (.obj [], r2)
        | _ => (parseFields fuel r).map fun p => (.obj p.1, p.2)
      else if c = '-' then
        (parseNumTok r).map fun p => (.num (-(p.1 : Int)), p.2)
      else if c.isDigit then
        (parseNumTok (c :: r)).map fun p => (.num (p.1 : Int), p.2)
      else none

/-- Parse one or more comma-separated array elements up to the closing
bracket. -/
def parseElems : Nat → List Char → Option (List Json × List Char)
  | 0, _ => none
  | fuel + 1, l =>
    match parseVal fuel l with
    | none => none
    | some (j, rest) =>
      match rest with
      | ',' :: r2 => (parseElems fuel r2).map fun p => (j :: p.1, p.2)
      | ']' :: r2 => some ([j], r2)
      | _ => none

/-- Parse one or more comma-separated object members up to the closing
brace. -/
def parseFields : Nat → List Char → Option (List (String × Json) × List Char)
  | 0, _ => none
  | fuel + 1, l =>
    match l with
    | '"' :: r =>
      match parseStrChars (r.length + 1) r with
      | some (k, ':' :: r2) =>
        match parseVal fuel r2 with
        | none => none
        | some (v, rest) =>
          match rest with
          | ',' :: r3 => (parseFields fuel r3).map fun p => ((⟨k⟩, v) :: p.1, p.2)
          | '\x7d' :: r3 => some ([(⟨k⟩, v)], r3)
          | _ => none
      | _ => none
    | _ => none

end

/-- JSON deserialisation `JSON.parse`, as used at `app.js:41` (cached value)
and `app.js:62` (fetch response body).  Returns `none` where the builtin
throws a `SyntaxError`. -/
def Json.parse (s : String) : Option Json :=
  match parseVal (s.length + 1) s.data with
  | some (j, []) => some j
  | _ => none

/-- Propositional guard: the rest of the input does not begin with a digit,
so that a number token just parsed cannot leak into it. -/
def headNotDigit : List Char → Prop
  | [] => True
  | c :: _ => c.isDigit = false

theorem charVal_dChar {d : Nat} (h : d < 10) : charVal (dChar d) = d := by
  interval_cases d <;> decide

theorem isDigit_dChar {d : Nat} (h : d < 10) : (dChar d).isDigit = true := by
  interval_cases d <;> decide

theorem ne_of_isDigit {c x : Char} (h : c.isDigit = true) (hx : x.isDigit = false) : c ≠ x := by
  intro e; subst e; simp [h] at hx

theorem natDigsAux_cons : ∀ fuel n, 0 < n → n ≤ fuel →
    ∃ d ds, natDigsAux fuel n = dChar d :: ds ∧ d < 10 := by
  intro fuel
  induction fuel with
  | zero => intro n h1 h2; omega
  | succ f ih =>
    intro n h1 h2
    cases n with
    | zero => omega
    | succ m =>
      by_cases h10 : (m + 1) / 10 = 0
      · refine ⟨(m + 1) % 10, [], ?_, Nat.mod_lt _ (by omega)⟩
        have hz : natDigsAux f ((m + 1) / 10) = [] := by
          rw [h10]; cases f <;> rfl
        simp [natDigsAux, hz]
      · obtain ⟨d, ds, hc, hd⟩ := ih ((m + 1) / 10) (by omega) (by omega)
        exact ⟨d, ds ++ [dChar ((m + 1) % 10)], by simp [natDigsAux, hc], hd⟩

theorem natDigs_cons (n : Nat) : ∃ d ds, natDigs n = dChar d :: ds ∧ d < 10 := by
  unfold natDigs
  by_cases h : n = 0
  · subst h; exact ⟨0, [], rfl, by omega⟩
  · simp only [h, if_false]
    exact natDigsAux_cons n n (by omega) le_rfl

theorem parseDigits_natDigsAux : ∀ fuel n, n ≤ fuel → ∀ acc rest,
    parseDigits (natDigsAux fuel n ++ rest) acc
      = parseDigits rest (acc * 10 ^ (natDigsAux fuel n).length + n) := by
  intro fuel
  induction fuel with
  | zero =>
    intro n h acc rest
    interval_cases n
    simp [natDigsAux, parseDigits]
  | succ f ih =>
    intro n h acc rest
    cases n with
    | zero => simp [natDigsAux, parseDigits]
    | succ m =>
      have hun : natDigsAux (f + 1) (m + 1)
          = natDigsAux f ((m + 1) / 10) ++ [dChar ((m + 1) % 10)] := rfl
      rw [hun, List.append_assoc, ih ((m + 1) / 10) (by omega)]
      have h10 : (m + 1) % 10 < 10 := Nat.mod_lt _ (by omega)
      simp only [List.singleton_append, parseDigits, isDigit_dChar h10, if_true,
        charVal_dChar h10, List.length_append, List.length_singleton]
      congr 1
      rw [pow_succ, ← mul_assoc]
      omega

theorem parseDigits_append (n : Nat) : ∀ acc rest,
    parseDigits (natDigs n ++ rest) acc = parseDigits rest (acc * 10 ^ (natDigs n).length + n) := by
  intro acc rest
  unfold natDigs
  by_cases h : n = 0
  · subst h
    have hc : charVal '0' = 0 := rfl
    simp [parseDigits, hc]
  · simp only [h, if_false]
    exact parseDigits_natDigsAux n n le_rfl acc rest

theorem parseDigits_stop (l : List Char) (acc : Nat) (h : headNotDigit l) :
    parseDigits l acc = (acc, l) := by
  cases l with
  | nil => rfl
  | cons c cs => simp only [headNotDigit] at h; simp [parseDigits, h]

theorem parseNumTok_natDigs (n : Nat) (rest : List Char) (h : headNotDigit rest) :
    parseNumTok (natDigs n ++ rest) = some (n, rest) := by
  obtain ⟨d, ds, hc, hd⟩ := natDigs_cons n
  rw [hc, List.cons_append]
  simp only [parseNumTok, isDigit_dChar hd, if_true]
  rw [← List.cons_append, ← hc, parseDigits_append, parseDigits_stop _ _ h]
  simp

theorem parseStrChars_esc (s : List Char) : ∀ fuel rest, (escChars s).length < fuel →
    parseStrChars fuel (escChars s ++ '"' :: rest) = some (s, rest) := by
  induction s with
  | nil =>
    intro fuel rest hf
    cases fuel with
    | zero => omega
    | succ f =>
      show parseStrChars (f + 1) ('"' :: rest) = some ([], rest)
      simp [parseStrChars]
  | cons c cs ih =>
    intro fuel rest hf
    have hesc : escChars (c :: cs) = escChar c ++ escChars cs := by simp [escChars]
    rw [hesc] at hf ⊢
    rw [List.append_assoc]
    cases fuel with
    | zero => omega
    | succ f =>
      by_cases h1 : c = '"'
      · subst h1
        rw [show escChar '"' = ['\\', '"'] from rfl] at hf ⊢
        rw [List.cons_append, List.cons_append]
        have hcs : (escChars cs).length < f := by
          simp at hf; omega
        simp [parseStrChars, unesc, ih f rest hcs]
      · by_cases h2 : c = '\\'
        · subst h2
          rw [show escChar '\\' = ['\\', '\\'] from rfl] at hf ⊢
          rw [List.cons_append, List.cons_append]
          have hcs : (escChars cs).length < f := by
            simp at hf; omega
          simp [parseStrChars, unesc, ih f rest hcs]
        · rw [show escChar c = [c] from by simp [escChar, h1, h2]] at hf ⊢
          rw [List.cons_append]
          have hcs : (escChars cs).length < f := by
            simp at hf; omega
          simp [parseStrChars, h1, h2, ih f rest hcs]

/-- Characters a `JSON.stringify` output value can begin with. -/
def startChar (c : Char) : Prop :=
  c = 'n' ∨ c = 't' ∨ c = 'f' ∨ c = '"' ∨ c = '[' ∨ c = '\x7b' ∨ c = '-' ∨ c.isDigit = true

theorem encJson_cons (j : Json) : ∃ c cs, encJson j = c :: cs ∧ startChar c := by
  cases j with
  | null => exact ⟨'n', _, rfl, by simp [startChar]⟩
  | bool b => cases b with
    | false => exact ⟨'f', _, rfl, by simp [startChar]⟩
    | true => exact ⟨'t', _, rfl, by simp [startChar]⟩
  | num n =>
    simp only [encJson, encInt]
    split
    · exact ⟨'-', _, rfl, by simp [startChar]⟩
    · obtain ⟨d, ds, hc, hd⟩ := natDigs_cons n.natAbs
      exact ⟨dChar d, ds, hc, by simp [startChar, isDigit_dChar hd]⟩
  | str s => exact ⟨'"', _, rfl, by simp [startChar]⟩
  | arr es => exact ⟨'[', _, rfl, by simp [startChar]⟩
  | obj fs => exact ⟨'\x7b', _, rfl, by simp [startChar]⟩

theorem startChar_ne_rbracket {c : Char} (h : startChar c) : c ≠ ']' := by
  rcases h with h | h | h | h | h | h | h | h <;> first
    | (subst h; decide)
    | (exact ne_of_isDigit h (by decide))

theorem encJson_length_pos (j : Json) : 1 ≤ (encJson j).length := by
  obtain ⟨c, cs, h, _⟩ := encJson_cons j
  rw [h]; simp

theorem encElems_cons_ex (e : Json) (es : List Json) :
    ∃ tail, encElems (e :: es) = encJson e ++ tail := by
  cases es with
  | nil => exact ⟨[], by simp [encElems]⟩
  | cons b bs => exact ⟨',' :: encElems (b :: bs), rfl⟩

theorem parseVal_digit (fuel : Nat) (c : Char) (r : List Char) (h : c.isDigit = true) :
    parseVal (fuel + 1) (c :: r)
      = (parseNumTok (c :: r)).map fun p => (.num (p.1 : Int), p.2) := by
  have h1 : c ≠ 'n' := ne_of_isDigit h (by decide)
  have h2 : c ≠ 't' := ne_of_isDigit h (by decide)
  have h3 : c ≠ 'f' := ne_of_isDigit h (by decide)
  have h4 : c ≠ '"' := ne_of_isDigit h (by decide)
  have h5 : c ≠ '[' := ne_of_isDigit h (by decide)
  have h6 : c ≠ '\x7b' := ne_of_isDigit h (by decide)
  have h7 : c ≠ '-' := ne_of_isDigit h (by decide)
  simp [parseVal, h1, h2, h3, h4, h5, h6, h7, h]

theorem hnd_rbracket (r : List Char) : headNotDigit (']' :: r) := by
  simp only [headNotDigit]; decide

theorem hnd_rbrace (r : List Char) : headNotDigit ('\x7d' :: r) := by
  simp only [headNotDigit]; decide

theorem hnd_comma (r : List Char) : headNotDigit (',' :: r) := by
  simp only [headNotDigit]; decide

theorem encFields_cons_ex (kv : String × Json) (fs : List (String × Json)) :
    ∃ tail, encFields (kv :: fs) = encField kv ++ tail := by
  cases fs with
  | nil => exact ⟨[], by simp [encFields]⟩
  | cons b bs => exact ⟨',' :: encFields (b :: bs), rfl⟩

mutual

theorem rtVal (j : Json) (fuel : Nat) (rest : List Char)
    (hf : (encJson j).length < fuel) (hr : headNotDigit rest) :
    parseVal fuel (encJson j ++ rest) = some (j, rest) := by
  cases j with
  | null =>
    cases fuel with
    | zero => omega
    | succ f =>
      show parseVal (f + 1) ('n' :: 'u' :: 'l' :: 'l' :: rest) = some (.null, rest)
      simp [parseVal, expectLit]
  | bool b =>
    cases fuel with
    | zero => omega
    | succ f =>
      cases b with
      | true =>
        show parseVal (f + 1) ('t' :: 'r' :: 'u' :: 'e' :: rest) = some (.bool true, rest)
        simp [parseVal, expectLit]
      | false =>
        show parseVal (f + 1) ('f' :: 'a' :: 'l' :: 's' :: 'e' :: rest) = some (.bool false, rest)
        simp [parseVal, expectLit]
  | num n =>
    obtain ⟨d, ds, hc, hd⟩ := natDigs_cons n.natAbs
    by_cases hneg : n < 0
    · have henc : encJson (.num n) = '-' :: natDigs n.natAbs := by
        simp [encJson, encInt, hneg]
      rw [henc] at hf ⊢
      cases fuel with
      | zero => omega
      | succ f =>
        rw [List.cons_append]
        have hmap := parseNumTok_natDigs n.natAbs rest hr
        simp [parseVal, hmap]
        rw [abs_of_nonpos (le_of_lt hneg)]
        ring
    · have henc : encJson (.num n) = natDigs n.natAbs := by
        simp [encJson, encInt, hneg]
      rw [henc] at hf ⊢
      cases fuel with
      | zero => omega
      | succ f =>
        rw [hc, List.cons_append, parseVal_digit f _ _ (isDigit_dChar hd),
          ← List.cons_append, ← hc, parseNumTok_natDigs n.natAbs rest hr]
        have habs : ((n.natAbs : Int)) = n := by omega
        simp [habs]
  | str s =>
    cases fuel with
    | zero => omega
    | succ f =>
      have henc : encJson (.str s) = '"' :: (escChars s.data ++ ['"']) := rfl
      rw [henc, List.cons_append, List.append_assoc]
      simp only [List.singleton_append]
      have hps := parseStrChars_esc s.data
        ((escChars s.data ++ '"' :: rest).length + 1) rest (by simp; omega)
      simp only [List.length_append, List.length_cons] at hps
      simp [parseVal]
      exact ⟨s.data, by simpa using hps, rfl⟩
  | arr es =>
    cases es with
    | nil =>
      cases fuel with
      | zero => omega
      | succ f =>
        show parseVal (f + 1) ('[' :: ']' :: rest) = some (.arr [], rest)
        simp [parseVal]
    | cons e es' =>
      cases fuel with
      | zero => omega
      | succ f =>
        have henc : encJson (.arr (e :: es')) = '[' :: (encElems (e :: es') ++ [']']) := rfl
        rw [henc] at hf ⊢
        rw [List.cons_append, List.append_assoc]
        simp only [List.singleton_append]
        obtain ⟨tail, htail⟩ := encElems_cons_ex e es'
        obtain ⟨c, cs, hcons, hsc⟩ := encJson_cons e
        have hshape : encElems (e :: es') ++ ']' :: rest = c :: (cs ++ tail ++ ']' :: rest) := by
          rw [htail, hcons]; simp
        have hfe : (encElems (e :: es')).length + 1 < f := by
          simp only [List.length_cons, List.length_append, List.length_singleton] at hf; omega
        have hres := rtElems (e :: es') (by simp) f rest hfe
        rw [hshape] at hres
        simp [parseVal]
        rw [hshape]
        split
        · rename_i r2 heq
          injection heq with h1 h2
          exact absurd h1 (startChar_ne_rbracket hsc)
        · rw [hres]
          rfl
  | obj fs =>
    cases fs with
    | nil =>
      cases fuel with
      | zero => omega
      | succ f =>
        show parseVal (f + 1) ('\x7b' :: '\x7d' :: rest) = some (.obj [], rest)
        simp [parseVal]
    | cons kv fs' =>
      cases fuel with
      | zero => omega
      | succ f =>
        have henc : encJson (.obj (kv :: fs')) = '\x7b' :: (encFields (kv :: fs') ++ ['\x7d']) := rfl
        rw [henc] at hf ⊢
        rw [List.cons_append, List.append_assoc]
        simp only [List.singleton_append]
        obtain ⟨tail, htail⟩ := encFields_cons_ex kv fs'
        have hshape : encFields (kv :: fs') ++ '\x7d' :: rest
            = '"' :: (escStr kv.1 ++ '"' :: ':' :: encJson kv.2 ++ tail ++ '\x7d' :: rest) := by
          rw [htail]; simp [encField]
        have hff : (encFields (kv :: fs')).length + 1 < f := by
          simp only [List.length_cons, List.length_append, List.length_singleton] at hf; omega
        have hres := rtFields (kv :: fs') (by simp) f rest hff
        rw [hshape] at hres
        simp [parseVal]
        rw [hshape]
        split
        · rename_i r2 heq
          injection heq with h1 h2
          exact absurd h1 (by decide)
        · rw [hres]
          rfl
termination_by sizeOf j

theorem rtElems (es : List Json) (hne : es ≠ []) (fuel : Nat) (rest : List Char)
    (hf : (encElems es).length + 1 < fuel) :
    parseElems fuel (encElems es ++ ']' :: rest) = some (es, rest) := by
  cases es with
  | nil => exact absurd rfl hne
  | cons e es' =>
    cases fuel with
    | zero => omega
    | succ f =>
      cases es' with
      | nil =>
        have henc : encElems [e] = encJson e := rfl
        rw [henc] at hf ⊢
        simp only [parseElems]
        rw [rtVal e f (']' :: rest) (by omega) (hnd_rbracket rest)]
        rfl
      | cons b bs =>
        have henc : encElems (e :: b :: bs) = encJson e ++ ',' :: encElems (b :: bs) := rfl
        rw [henc] at hf ⊢
        rw [List.append_assoc]
        simp only [List.cons_append]
        have hA := encJson_length_pos e
        simp only [List.length_append, List.length_cons] at hf
        simp only [parseElems]
        rw [rtVal e f (',' :: (encElems (b :: bs) ++ ']' :: rest)) (by omega)
          (hnd_comma _)]
        have hres2 := rtElems (b :: bs) (by simp) f rest (by omega)
        simp [hres2]
termination_by sizeOf es

theorem rtFields (fs : List (String × Json)) (hne : fs ≠ []) (fuel : Nat) (rest : List Char)
    (hf : (encFields fs).length + 1 < fuel) :
    parseFields fuel (encFields fs ++ '\x7d' :: rest) = some (fs, rest) := by
  cases fs with
  | nil => exact absurd rfl hne
  | cons kv fs' =>
    cases fuel with
    | zero => omega
    | succ f =>
      cases fs' with
      | nil =>
        have henc : encFields [kv]
            = '"' :: (escChars kv.1.data ++ '"' :: ':' :: encJson kv.2) := by
          simp [encFields, encField, escStr]
        rw [henc] at hf ⊢
        rw [List.cons_append, List.append_assoc]
        simp only [List.cons_append]
        simp only [List.length_cons, List.length_append] at hf
        simp only [parseFields]
        rw [parseStrChars_esc kv.1.data _ _ (by simp; omega)]
        have hres2 := rtVal kv.2 f ('\x7d' :: rest) (by omega) (hnd_rbrace rest)
        simp [hres2]
      | cons b bs =>
        have henc : encFields (kv :: b :: bs)
            = ('"' :: (escChars kv.1.data ++ '"' :: ':' :: encJson kv.2))
              ++ ',' :: encFields (b :: bs) := by
          simp [encFields, encField, escStr]
        rw [henc] at hf ⊢
        rw [List.append_assoc]
        simp only [List.cons_append, List.append_assoc]
        have hB := encJson_length_pos kv.2
        simp only [List.length_cons, List.length_append] at hf
        simp only [parseFields]
        rw [parseStrChars_esc kv.1.data _ _ (by simp; omega)]
        have hres2 := rtVal kv.2 f (',' :: (encFields (b :: bs) ++ '\x7d' :: rest)) (by omega)
          (hnd_comma _)
        have hres3 := rtFields (b :: bs) (by simp) f rest (by omega)
        simp [hres2, hres3]
termination_by sizeOf fs
decreasing_by
  all_goals subst_vars
  all_goals (try cases kv)
  all_goals (simp; try omega)

end

/-- Round trip: parsing a serialised JSON value gives the value back.  This
is the heart of the cache round-trip property of `getRepos` /
`fetchUserRepos`. -/
theorem Json.parse_stringify (j : Json) : Json.parse (Json.stringify j) = some j := by
  have h : (Json.stringify j).data = encJson j := rfl
  have hlen : (Json.stringify j).length = (encJson j).length := rfl
  unfold Json.parse
  rw [h, hlen]
  have := rtVal j ((encJson j).length + 1) [] (by omega) trivial
  rw [List.append_nil] at this
  rw [this]

/-- Static exclusion list `GitHubAPI.exclude` (app.js:26-29). -/
def GitHubAPI.exclude : List String :=
  ["liamnewmarch.github.io", "janineandliam.co.uk"]

/-- Lookup of an object field.  JavaScript objects built by `JSON.parse`
keep the last of duplicate keys, hence the later-binding-wins recursion. -/
def lookupField : List (String × Json) → String → Option Json
  | [], _ => none
  | (k2, v) :: fs, k =>
    match lookupField fs k with
    | some r => some r
    | none => if k2 = k then some v else none

/-- JavaScript property read `x[key]` for the non-throwing receivers: field
lookup on objects, `undefined` (`none`) on primitives and arrays (whose
wrapper objects carry none of the fields this program reads). -/
def getF : Json → String → Option Json
  | .obj fields, k => lookupField fields k
  | _, _ => none

/-- JavaScript property read `x[key]` including the throwing case: reading a
property of `null` throws a TypeError (`Except.error`). -/
def getProp : Json → String → Except Unit (Option Json)
  | .null, _ => .error ()
  | .obj fields, k => .ok (lookupField fields k)
  | _, _ => .ok none

/-- JavaScript truthiness of a possibly-`undefined` value (`none` is
`undefined`). -/
def truthy : Option Json → Bool
  | none => false
  | some .null => false
  | some (.bool b) => b
  | some (.num n) => decide (n ≠ 0)
  | some (.str s) => decide (s ≠ "")
  | some (.arr _) => true
  | some (.obj _) => true

/-- The test `GitHubAPI.exclude.includes(repo.name)` (app.js:84):
`Array.prototype.includes` compares with strict equality, so only a string
field equal to one of the excluded names matches. -/
def nameExcluded (r : Json) : Bool :=
  match getF r "name" with
  | some (.str s) => GitHubAPI.exclude.contains s
  | _ => false

/-- The `repos.filter(...)` step of `filterWithPages` (app.js:83-84).
`none` models the TypeError thrown when the predicate reads
`repo.has_pages` on a `null` element. -/
def filterRepos : List Json → Option (List Json)
  | [] => some []
  | r :: rs =>
    match getProp r "has_pages" with
    | .error _ => none
    | .ok v =>
      if truthy v && !(nameExcluded r) then (filterRepos rs).map fun l => r :: l
      else filterRepos rs

/-- Value of a two-digit group. -/
def d2val (a b : Char) : Nat := charVal a * 10 + charVal b

/-- Encode a validated calendar tuple as a single integer that is strictly
monotone in chronological order; stands for the millisecond time value of
the corresponding `Date` (claims only ever compare these values). -/
def isoVal (y mo d h mi se : Nat) : Option Int :=
  if 1 ≤ mo ∧ mo ≤ 12 ∧ 1 ≤ d ∧ d ≤ 31 ∧ h ≤ 23 ∧ mi ≤ 59 ∧ se ≤ 59 then
    some ((((((y * 12 + (mo - 1)) * 31 + (d - 1)) * 24 + h) * 60 + mi) * 60 + se : Nat) : Int)
  else none

/-- Parse of the two ISO-8601 date shapes this program meets (`YYYY-MM-DD`
and `YYYY-MM-DDTHH:MM:SSZ`, the GitHub API's `updated_at` format), as
accepted by the `Date` constructor; `none` models an invalid date (NaN
time value). -/
def isoParseChars : List Char → Option Int
  | [y1, y2, y3, y4, s1, m1, m2, s2, d1, d2] =>
    if y1.isDigit ∧ y2.isDigit ∧ y3.isDigit ∧ y4.isDigit ∧ s1 = '-' ∧ m1.isDigit
        ∧ m2.isDigit ∧ s2 = '-' ∧ d1.isDigit ∧ d2.isDigit then
      isoVal (charVal y1 * 1000 + charVal y2 * 100 + charVal y3 * 10 + charVal y4)
        (d2val m1 m2) (d2val d1 d2) 0 0 0
    else none
  | [y1, y2, y3, y4, s1, m1, m2, s2, d1, d2, t1, h1, h2, c1, mi1, mi2, c2, se1, se2, z1] =>
    if y1.isDigit ∧ y2.isDigit ∧ y3.isDigit ∧ y4.isDigit ∧ s1 = '-' ∧ m1.isDigit
        ∧ m2.isDigit ∧ s2 = '-' ∧ d1.isDigit ∧ d2.isDigit ∧ t1 = 'T' ∧ h1.isDigit
        ∧ h2.isDigit ∧ c1 = ':' ∧ mi1.isDigit ∧ mi2.isDigit ∧ c2 = ':' ∧ se1.isDigit
        ∧ se2.isDigit ∧ z1 = 'Z' then
      isoVal (charVal y1 * 1000 + charVal y2 * 100 + charVal y3 * 10 + charVal y4)
        (d2val m1 m2) (d2val d1 d2) (d2val h1 h2) (d2val mi1 mi2) (d2val se1 se2)
    else none
  | _ => none

/-- Time value of `new Date(x)` for the argument shapes this program can
meet: ISO strings parse as above, numbers are their own time value, `null`
coerces to 0 and booleans to 0/1; anything else (including `undefined`) is
an invalid date (`none` = NaN).  Object/array-to-primitive coercion is not
modelled: the repository records' `updated_at` fields are strings. -/
def dateVal : Option Json → Option Int
  | some (.str s) => isoParseChars s.data
  | some (.num n) => some n
  | some (.bool b) => some (if b then 1 else 0)
  | some .null => some 0
  | _ => none

/-- Time value of `new Date(r.updated_at)` for a record `r`. -/
def updVal (r : Json) : Option Int := dateVal (getF r "updated_at")

/-- The comparison `new Date(a.updated_at) > new Date(b.updated_at)` of the
sort callback (app.js:86): a NaN operand makes every comparison false. -/
def dGt (a b : Json) : Bool :=
  match updVal a, updVal b with
  | some x, some y => decide (y < x)
  | _, _ => false

/-- The sort callback of app.js:86: `-1` when the first record's date is
strictly later, else `1` (it never returns `0`). -/
def cmpDate (a b : Json) : Int := if dGt a b then -1 else 1

/-- Stable merge of two runs as performed by the engines' merge sort
(`Array.prototype.sort`): the element of the right run goes first exactly
when the comparator says it is strictly smaller.  Fuel-indexed; the sum of
the lengths is enough fuel. -/
def jsMerge : Nat → List Json → List Json → List Json
  | 0, as, bs => as ++ bs
  | _ + 1, [], bs => bs
  | _ + 1, a :: as, [] => a :: as
  | fuel + 1, a :: as, b :: bs =>
    if cmpDate b a < 0 then b :: jsMerge fuel (a :: as) bs
    else a :: jsMerge fuel as (b :: bs)

/-- Top-down stable merge sort, modelling `Array.prototype.sort` with the
app.js:86 comparator (ECMAScript requires a stable sort; all major engines
use a merge sort).  Fuel-indexed; the list length is enough fuel. -/
def jsSortAux : Nat → List Json → List Json
  | 0, l => l
  | _ + 1, [] => []
  | _ + 1, [a] => [a]
  | fuel + 1, a :: b :: rest =>
    jsMerge (rest.length + 2)
      (jsSortAux fuel ((a :: b :: rest).take ((rest.length + 2) / 2)))
      (jsSortAux fuel ((a :: b :: rest).drop ((rest.length + 2) / 2)))

/-- The `.sort(...)` step of `filterWithPages` (app.js:85-87). -/
def jsSort (l : List Json) : List Json := jsSortAux l.length l

/-- `GitHubAPI.prototype.filterWithPages` (app.js:82-88): filter to records
whose `has_pages` is truthy and whose `name` is not excluded, then sort by
`updated_at` descending.  `none` models the TypeError thrown by the filter
predicate on a `null` element. -/
def filterWithPages (repos : List Json) : Option (List Json) :=
  (filterRepos repos).map jsSort

/-- The `data.filter` call requires an array receiver; on any other parsed
value `data.filter` is not a function and a TypeError is thrown. -/
def asArr : Json → Option (List Json)
  | .arr es => some es
  | _ => none

/-- Kinds of errors handed to the error callback. -/
inductive Err where
  | parseError
  | typeError
  | callbackError
  | networkError

/-- Observable events of one `getRepos` / `fetchUserRepos` run: a success
callback invocation, an error callback invocation, or a write of a
serialised value into `sessionStorage` under a key. -/
inductive Ev where
  | success (value : Json)
  | error (e : Err)
  | cacheWrite (key val : String)

/-- Outcome of the single XHR issued by `fetchUserRepos`: a `load` event
with a status and response body, or an `error` (transport failure)
event. -/
inductive NetOutcome where
  | load (status : Nat) (response : String)
  | netError

/-- The XHR `load` listener of `fetchUserRepos` (app.js:59-70), as the list
of observable events it produces in order.  `scFails v = true` models the
caller-supplied success callback throwing when invoked with `v` (it is
still invoked first — that is an event); the `try`/`catch` then routes the
exception to the error callback and the cache write is never reached. -/
def loadHandler (username : String) (status : Nat) (response : String)
    (scFails : Json → Bool) : List Ev :=
  if status = 200 then
    match Json.parse response with
    | none => [.error .parseError]
    | some data =>
      match asArr data with
      | none => [.error .typeError]
      | some repos =>
        match filterRepos repos with
        | none => [.error .typeError]
        | some kept =>
          let filtered := Json.arr (jsSort kept)
          if scFails filtered then [.success filtered, .error .callbackError]
          else [.success filtered, .cacheWrite username (Json.stringify filtered)]
  else []

/-- `GitHubAPI.prototype.fetchUserRepos` (app.js:55-73): the `load`
listener handles a completed HTTP exchange (any status), the `error`
listener invokes the error callback on transport failure. -/
def fetchUserRepos (username : String) (outcome : NetOutcome)
    (scFails : Json → Bool) : List Ev :=
  match outcome with
  | .load status response => loadHandler username status response scFails
  | .netError => [.error .networkError]

/-- `GitHubAPI.prototype.getRepos` (app.js:38-46).  `cache` is
`sessionStorage[this.username]` (`none` when the key is absent, in which
case `JSON.parse(undefined)` throws and the `catch` falls through to the
fetch, exactly as on a failed parse of a present value).  When the cached
parse succeeds the success callback is invoked; if it throws
(`scFails`), the same `catch` falls through to a fetch. -/
def getRepos (username : String) (cache : Option String) (outcome : NetOutcome)
    (scFails : Json → Bool) : List Ev :=
  match cache with
  | none => fetchUserRepos username outcome scFails
  | some s =>
    match Json.parse s with
    | none => fetchUserRepos username outcome scFails
    | some j =>
      if scFails j then .success j :: fetchUserRepos username outcome scFails
      else [.success j]

/-- The whitespace class `\s` of the template regular expression
(`GitHubReposComponent.templateRegExp`, app.js:127), restricted to the
whitespace characters that occur in HTML templates. -/
def wsChar (c : Char) : Bool := c = ' ' || c = '\t' || c = '\n' || c = '\r'

/-- The word class `\w` of the template regular expression: ASCII
alphanumerics and underscore. -/
def wordChar (c : Char) : Bool := c.isAlphanum || c = '_'

mutual

/-- JavaScript string conversion of the values substituted into the
template (only truthy values are ever converted; `String.replace` applies
it to the replacement returned by the callback at app.js:164). -/
def jsString : Json → String
  | .null => "null"
  | .bool true => "true"
  | .bool false => "false"
  | .num n => ⟨encInt n⟩
  | .str s => s
  | .arr es => ⟨jsStringElems es⟩
  | .obj _ => "[object Object]"

/-- Array-to-string conversion: elements joined with commas, `null`
elements becoming empty (JavaScript `Array.prototype.toString`). -/
def jsStringElems : List Json → List Char
  | [] => []
  | [.null] => []
  | [e] => (jsString e).data
  | .null :: es => ',' :: jsStringElems es
  | e :: es => (jsString e).data ++ ',' :: jsStringElems es

end

/-- Replacement for one matched template token: the callback
`function(_, key) \x7b return repo[key] || ''; \x7d` of app.js:163-165. -/
def subst (repo : Json) (key : String) : String :=
  match getF repo key with
  | some v => if truthy (some v) then jsString v else ""
  | none => ""

/-- Attempt to match the template token regular expression
`/\\\x7b\\\x7b\\s*(\\w+)\\s*\\\x7d\\\x7d/` at the head of the input,
returning the captured key and the input after the match. -/
def tryToken : List Char → Option (String × List Char)
  | '\x7b' :: '\x7b' :: r =>
    let r1 := r.dropWhile wsChar
    let key := r1.takeWhile wordChar
    if key.isEmpty then none
    else
      match (r1.drop key.length).dropWhile wsChar with
      | '\x7d' :: '\x7d' :: r3 => some (⟨key⟩, r3)
      | _ => none
  | _ => none

/-- Scan of `String.replace` with a global regular expression: at each
position, either replace a match and continue after it, or emit the
character and move on.  Fuel-indexed; the input length is enough fuel. -/
def renderAux (repo : Json) : Nat → List Char → List Char
  | 0, l => l
  | _ + 1, [] => []
  | fuel + 1, c :: r =>
    match tryToken (c :: r) with
    | some (key, rest2) => (subst repo key).data ++ renderAux repo fuel rest2
    | none => c :: renderAux repo fuel r

/-- The template substitution of `GitHubReposComponent.prototype._render`
(app.js:158-167): `this.template.replace(templateRegExp, ...)`, the pure
string computation of the renderer (the surrounding DOM element creation
is glue outside this model).  This is the `render(template, record)`
contract of the specification. -/
def render (template : String) (repo : Json) : String :=
  ⟨renderAux repo template.length template.data⟩

theorem getF_of_getProp_ok (r : Json) (k : String) (v : Option Json)
    (h : getProp r k = .ok v) : getF r k = v := by
  cases r <;> simp [getProp, getF] at h ⊢ <;> simp [h]

theorem filterRepos_spec : ∀ (l kept : List Json), filterRepos l = some kept →
    ∀ r ∈ kept, r ∈ l ∧ (∃ v, getProp r "has_pages" = .ok v ∧ truthy v = true)
      ∧ nameExcluded r = false := by
  intro l
  induction l with
  | nil =>
    intro kept h r hr
    simp [filterRepos] at h
    subst h
    simp at hr
  | cons a rs ih =>
    intro kept h r hr
    simp only [filterRepos] at h
    split at h
    · simp at h
    · rename_i v hgp
      split at h
      · rename_i hcond
        rcases hmap : filterRepos rs with _ | l2
        · rw [hmap] at h; simp at h
        · rw [hmap] at h
          simp only [Option.map_some'] at h
          obtain rfl : a :: l2 = kept := by simpa using h
          rcases hr with _ | hr2
          · rw [Bool.and_eq_true, Bool.not_eq_true'] at hcond
            exact ⟨List.mem_cons_self a rs, ⟨v, hgp, hcond.1⟩, hcond.2⟩
          · rename_i hr2
            obtain ⟨hmem, hv, hex⟩ := ih l2 hmap r hr2
            exact ⟨List.mem_cons_of_mem a hmem, hv, hex⟩
      · obtain ⟨hmem, hv, hex⟩ := ih kept h r hr
        exact ⟨List.mem_cons_of_mem a hmem, hv, hex⟩

theorem jsMerge_mem : ∀ (fuel : Nat) (as bs : List Json) (x : Json),
    x ∈ jsMerge fuel as bs → x ∈ as ∨ x ∈ bs := by
  intro fuel
  induction fuel with
  | zero =>
    intro as bs x h
    simpa [jsMerge] using h
  | succ f ih =>
    intro as bs x h
    cases as with
    | nil => right; simpa [jsMerge] using h
    | cons a as2 =>
    cases bs with
    | nil => left; simpa [jsMerge] using h
    | cons b bs2 =>
      simp only [jsMerge] at h
      split at h
      · rcases List.mem_cons.mp h with rfl | h2
        · right; exact List.mem_cons_self _ _
        · rcases ih (a :: as2) bs2 x h2 with h3 | h3
          · left; exact h3
          · right; exact List.mem_cons_of_mem b h3
      · rcases List.mem_cons.mp h with rfl | h2
        · left; exact List.mem_cons_self _ _
        · rcases ih as2 (b :: bs2) x h2 with h3 | h3
          · left; exact List.mem_cons_of_mem a h3
          · right; exact h3

theorem jsSortAux_mem : ∀ (fuel : Nat) (l : List Json) (x : Json),
    x ∈ jsSortAux fuel l → x ∈ l := by
  intro fuel
  induction fuel with
  | zero => intro l x h; simpa [jsSortAux] using h
  | succ f ih =>
    intro l x h
    cases l with
    | nil => simp [jsSortAux] at h
    | cons a t =>
    cases t with
    | nil => simpa [jsSortAux] using h
    | cons b rest =>
      simp only [jsSortAux] at h
      rcases jsMerge_mem _ _ _ x h with h2 | h2
      · exact List.take_subset _ _ (ih _ x h2)
      · exact List.drop_subset _ _ (ih _ x h2)

theorem jsSort_mem (l : List Json) (x : Json) (h : x ∈ jsSort l) : x ∈ l :=
  jsSortAux_mem l.length l x h

theorem jsMerge_length : ∀ (fuel : Nat) (as bs : List Json),
    (jsMerge fuel as bs).length = as.length + bs.length := by
  intro fuel
  induction fuel with
  | zero => intro as bs; simp [jsMerge]
  | succ f ih =>
    intro as bs
    cases as with
    | nil => simp [jsMerge]
    | cons a as2 =>
    cases bs with
    | nil => simp [jsMerge]
    | cons b bs2 =>
      simp only [jsMerge]
      split <;> simp [ih] <;> omega

theorem jsSortAux_length : ∀ (fuel : Nat) (l : List Json),
    (jsSortAux fuel l).length = l.length := by
  intro fuel
  induction fuel with
  | zero => intro l; simp [jsSortAux]
  | succ f ih =>
    intro l
    cases l with
    | nil => simp [jsSortAux]
    | cons a t =>
    cases t with
    | nil => simp [jsSortAux]
    | cons b rest =>
      simp only [jsSortAux]
      rw [jsMerge_length, ih, ih, List.length_take, List.length_drop]
      simp
      omega

/-- Non-increasing `updated_at` order: whenever both records' dates parse,
the later record's date is not later than the earlier record's. -/
def dGe (a b : Json) : Prop :=
  ∀ x y, updVal a = some x → updVal b = some y → y ≤ x

theorem dGt_true_elim {a b : Json} (h : dGt b a = true) :
    ∃ x y, updVal a = some x ∧ updVal b = some y ∧ x < y := by
  unfold dGt at h
  rcases hb : updVal b with _ | vb <;> rcases ha : updVal a with _ | va <;>
    rw [hb, ha] at h <;> simp at h
  exact ⟨va, vb, rfl, rfl, h⟩

theorem dGt_false_elim {a b : Json} {x y : Int} (h : dGt b a = false)
    (ha : updVal a = some x) (hb : updVal b = some y) : y ≤ x := by
  unfold dGt at h
  rw [hb, ha] at h
  simpa using h

theorem cmpDate_lt_iff (a b : Json) : cmpDate a b < 0 ↔ dGt a b = true := by
  unfold cmpDate
  split <;> simp_all

theorem jsMerge_sorted : ∀ (fuel : Nat) (as bs : List Json),
    as.length + bs.length ≤ fuel →
    (∀ x ∈ as, (updVal x).isSome) → (∀ x ∈ bs, (updVal x).isSome) →
    as.Sorted dGe → bs.Sorted dGe → (jsMerge fuel as bs).Sorted dGe := by
  intro fuel
  induction fuel with
  | zero =>
    intro as bs hlen _ _ _ _
    cases as with
    | cons a as2 => simp at hlen
    | nil =>
    cases bs with
    | cons b bs2 => simp at hlen
    | nil => simp [jsMerge]
  | succ f ih =>
    intro as bs hlen hva hvb hsa hsb
    cases as with
    | nil => simpa [jsMerge] using hsb
    | cons a as2 =>
    cases bs with
    | nil => simpa [jsMerge] using hsa
    | cons b bs2 =>
      obtain ⟨hra, hsa2⟩ := List.sorted_cons.mp hsa
      obtain ⟨hrb, hsb2⟩ := List.sorted_cons.mp hsb
      simp only [jsMerge]
      split
      · rename_i hlt
        have hgt : dGt b a = true := (cmpDate_lt_iff b a).mp hlt
        obtain ⟨va, vb, hua, hub, hvab⟩ := dGt_true_elim hgt
        rw [List.sorted_cons]
        constructor
        · intro z hz
          rcases jsMerge_mem _ _ _ z hz with hz2 | hz2
          · rcases List.mem_cons.mp hz2 with rfl | hz3
            · intro x y hx hy
              have hx2 : x = vb := by rw [hub] at hx; exact (Option.some.inj hx).symm
              have hy2 : y = va := by rw [hua] at hy; exact (Option.some.inj hy).symm
              omega
            · intro x y hx hy
              have hle := hra z hz3 va y hua hy
              have hx2 : x = vb := by rw [hub] at hx; exact (Option.some.inj hx).symm
              omega
          · exact hrb z hz2
        · exact ih (a :: as2) bs2 (by simp at hlen ⊢; omega) hva
            (fun x hx => hvb x (List.mem_cons_of_mem b hx)) hsa hsb2
      · rename_i hnlt
        have hngt : dGt b a = false := by
          rcases h2 : dGt b a with _ | _
          · rfl
          · exact absurd ((cmpDate_lt_iff b a).mpr h2) hnlt
        rw [List.sorted_cons]
        constructor
        · intro z hz
          rcases jsMerge_mem _ _ _ z hz with hz2 | hz2
          · exact hra z hz2
          · rcases List.mem_cons.mp hz2 with rfl | hz3
            · intro x y hx hy
              exact dGt_false_elim hngt hx hy
            · intro x y hx hy
              obtain ⟨vb, hub⟩ := Option.isSome_iff_exists.mp
                (hvb b (List.mem_cons_self b bs2))
              have h1 := dGt_false_elim hngt hx hub
              have h2 := hrb z hz3 vb y hub hy
              omega
        · exact ih as2 (b :: bs2) (by simp at hlen ⊢; omega)
            (fun x hx => hva x (List.mem_cons_of_mem a hx)) hvb hsa2 hsb

theorem jsSortAux_sorted : ∀ (fuel : Nat) (l : List Json),
    l.length ≤ fuel → (∀ x ∈ l, (updVal x).isSome) →
    (jsSortAux fuel l).Sorted dGe := by
  intro fuel
  induction fuel with
  | zero =>
    intro l hlen _
    cases l with
    | cons a t => simp at hlen
    | nil => simp [jsSortAux]
  | succ f ih =>
    intro l hlen hv
    cases l with
    | nil => simp [jsSortAux]
    | cons a t =>
    cases t with
    | nil => simp [jsSortAux]
    | cons b rest =>
      simp only [jsSortAux]
      have hlt : (List.take ((rest.length + 2) / 2) (a :: b :: rest)).length
          = (rest.length + 2) / 2 := by
        rw [List.length_take]
        simp
        omega
      have hld : (List.drop ((rest.length + 2) / 2) (a :: b :: rest)).length
          = rest.length + 2 - (rest.length + 2) / 2 := by
        rw [List.length_drop]
        simp
      apply jsMerge_sorted
      · rw [jsSortAux_length, jsSortAux_length, hlt, hld]
        omega
      · intro x hx
        exact hv x (List.take_subset _ _ (jsSortAux_mem _ _ x hx))
      · intro x hx
        exact hv x (List.drop_subset _ _ (jsSortAux_mem _ _ x hx))
      · apply ih
        · rw [hlt]
          simp at hlen
          omega
        · intro x hx
          exact hv x (List.take_subset _ _ hx)
      · apply ih
        · rw [hld]
          simp at hlen
          omega
        · intro x hx
          exact hv x (List.drop_subset _ _ hx)

theorem jsSort_sorted (l : List Json) (hv : ∀ x ∈ l, (updVal x).isSome) :
    (jsSort l).Sorted dGe :=
  jsSortAux_sorted l.length l le_rfl hv

theorem asArr_eq_some {j : Json} {es : List Json} (h : asArr j = some es) : j = .arr es := by
  cases j <;> simp_all [asArr]

/-- Membership of a cache write in a fetch trace pins down the whole
successful-fetch shape: a 200 response whose body parsed as an array,
filtered without throwing, delivered to a non-throwing success callback,
written under the fetching user's key as the serialised filtered list. -/
theorem cacheWrite_fetch (username : String) (outcome : NetOutcome) (scFails : Json → Bool)
    (k v : String) (h : Ev.cacheWrite k v ∈ fetchUserRepos username outcome scFails) :
    ∃ response repos kept, outcome = .load 200 response
      ∧ Json.parse response = some (.arr repos) ∧ filterRepos repos = some kept
      ∧ scFails (.arr (jsSort kept)) = false ∧ k = username
      ∧ v = Json.stringify (.arr (jsSort kept)) := by
  cases outcome with
  | netError => simp [fetchUserRepos] at h
  | load status response =>
    simp only [fetchUserRepos, loadHandler] at h
    by_cases hs : status = 200
    · subst hs
      rw [if_pos rfl] at h
      split at h
      · simp at h
      · rename_i data hp
        split at h
        · simp at h
        · rename_i repos hA
          split at h
          · simp at h
          · rename_i kept hf
            split at h
            · simp at h
            · rename_i hsc
              rw [Bool.not_eq_true] at hsc
              simp at h
              exact ⟨response, repos, kept, rfl, by rw [hp, asArr_eq_some hA],
                hf, hsc, h.1, h.2⟩
    · rw [if_neg hs] at h
      simp at h

/-- Sample repository records for the concrete witnesses: the mock records
of specification §8 (`x` has pages, `y` does not, the
`liamnewmarch.github.io` record is excluded by name) plus a record with a
full ISO timestamp. -/
def recX : Json :=
  .obj [("name", .str "x"), ("has_pages", .bool true), ("updated_at", .str "2020-01-01")]

def recY : Json :=
  .obj [("name", .str "y"), ("has_pages", .bool false), ("updated_at", .str "2021-01-01")]

def recL : Json :=
  .obj [("name", .str "liamnewmarch.github.io"), ("has_pages", .bool true),
    ("updated_at", .str "2022-01-01")]

def recZ : Json :=
  .obj [("name", .str "z"), ("has_pages", .bool true),
    ("updated_at", .str "2023-05-06T07:08:09Z")]

/-- Claim C1: the specification says any non-200 status or transport
failure surfaces a network error through the error callback.  The code
only honours the transport-failure half: the `load` listener (app.js:59-69)
guards its whole body with `status === 200` and has no else branch, so a
completed HTTP exchange with any other status invokes neither callback —
the failure is silent, contradicting the claim and the function's own doc
comment ("Called if the fetch was not succesful"). -/
theorem c1_non200_response_invokes_no_callback (username response : String)
    (status : Nat) (scFails : Json → Bool) (h : status ≠ 200) :
    fetchUserRepos username (.load status response) scFails = []
      ∧ fetchUserRepos username .netError scFails = [.error .networkError] := by
  constructor
  · simp [fetchUserRepos, loadHandler, h]
  · rfl

/-- Witness for C1 at the failing input: a 404 response for an unknown
user invokes no callback at all, while a transport failure does reach the
error callback. -/
theorem c1_witness :
    fetchUserRepos "liamnewmarch" (.load 404 "\x7b\"message\":\"Not Found\"\x7d")
        (fun _ => false) = []
      ∧ fetchUserRepos "liamnewmarch" .netError (fun _ => false)
        = [.error .networkError] :=
  c1_non200_response_invokes_no_callback "liamnewmarch"
    "\x7b\"message\":\"Not Found\"\x7d" 404 (fun _ => false) (by decide)

/-- Claim C2: every record in a list produced by `filterWithPages` has a
truthy `has_pages` field (so a boolean `has_pages` is `true`) and a `name`
outside the exclusion set; no record failing either condition survives. -/
theorem c2_filterWithPages_kept_records (l out : List Json)
    (h : filterWithPages l = some out) :
    ∀ r ∈ out, truthy (getF r "has_pages") = true
      ∧ (∀ b, getF r "has_pages" = some (.bool b) → b = true)
      ∧ nameExcluded r = false
      ∧ (∀ s, getF r "name" = some (.str s) → s ∉ GitHubAPI.exclude) := by
  intro r hr
  unfold filterWithPages at h
  rcases hfr : filterRepos l with _ | kept
  · rw [hfr] at h; simp at h
  · rw [hfr] at h
    simp only [Option.map_some'] at h
    obtain rfl : jsSort kept = out := by simpa using h
    have hrk : r ∈ kept := jsSort_mem kept r hr
    obtain ⟨_, ⟨v, hgp, htr⟩, hex⟩ := filterRepos_spec l kept hfr r hrk
    have hgf : getF r "has_pages" = v := getF_of_getProp_ok r _ v hgp
    refine ⟨by rw [hgf]; exact htr, ?_, hex, ?_⟩
    · intro b hb
      rw [hgf] at hb
      subst hb
      simpa [truthy] using htr
    · intro s hs
      simp only [nameExcluded, hs] at hex
      simpa using hex

/-- Witness for C2 on the specification's mock input: `x` is kept and
satisfies every condition. -/
theorem c2_witness :
    truthy (getF recX "has_pages") = true
      ∧ (∀ b, getF recX "has_pages" = some (.bool b) → b = true)
      ∧ nameExcluded recX = false
      ∧ (∀ s, getF recX "name" = some (.str s) → s ∉ GitHubAPI.exclude) :=
  c2_filterWithPages_kept_records [recX, recY, recL] [recX] rfl recX
    (List.mem_singleton.mpr rfl)

/-- Claim C3: when every input record carries a parseable `updated_at`
date (the GitHub API guarantees ISO-8601 strings), the `filterWithPages`
output is sorted by `updated_at` in non-increasing order; and the output —
hence the relative order of records with equal dates — is identical on
every run with the same input. -/
theorem c3_filterWithPages_sorted_deterministic (l out : List Json)
    (hv : ∀ r ∈ l, (updVal r).isSome)
    (h : filterWithPages l = some out) :
    out.Sorted dGe ∧ ∀ out2, filterWithPages l = some out2 → out2 = out := by
  constructor
  · unfold filterWithPages at h
    rcases hfr : filterRepos l with _ | kept
    · rw [hfr] at h; simp at h
    · rw [hfr] at h
      simp only [Option.map_some'] at h
      obtain rfl : jsSort kept = out := by simpa using h
      apply jsSort_sorted
      intro x hx
      exact hv x (filterRepos_spec l kept hfr x hx).1
  · intro out2 h2
    rw [h] at h2
    exact (Option.some.inj h2).symm

/-- Witness for C3 on the mock input extended with a full-timestamp
record: the output is the 2023 record before the 2020 record. -/
theorem c3_witness :
    ([recZ, recX] : List Json).Sorted dGe
      ∧ ∀ out2, filterWithPages [recX, recY, recL, recZ] = some out2
        → out2 = [recZ, recX] :=
  c3_filterWithPages_sorted_deterministic [recX, recY, recL, recZ] [recZ, recX]
    (by decide) rfl

/-- Claim C4: a present but malformed cached value makes `getRepos` behave
exactly as on a cache miss — the entire observable behaviour (callbacks
invoked, cache writes) equals that of a run with no cached entry, so no
exception escapes and no error callback fires for the parse failure. -/
theorem c4_malformed_cache_is_cache_miss (username s : String)
    (outcome : NetOutcome) (scFails : Json → Bool)
    (h : Json.parse s = none) :
    getRepos username (some s) outcome scFails
      = getRepos username none outcome scFails := by
  simp [getRepos, h]

/-- Witness for C4 at the truncated cached value of specification §8. -/
theorem c4_witness :
    getRepos "liamnewmarch" (some "\x7b") (.load 200 "[]") (fun _ => false)
      = getRepos "liamnewmarch" none (.load 200 "[]") (fun _ => false) :=
  c4_malformed_cache_is_cache_miss "liamnewmarch" "\x7b" (.load 200 "[]")
    (fun _ => false) rfl

/-- Claim C5: the cache is written only on the successful-network-fetch
path — every cache-write event implies a 200 response that parsed as an
array, filtered without throwing, with a success callback that returned
normally, and the written entry is the serialised filtered list under the
fetching user's key; on the cache-hit path the whole trace is one success
callback, so no cache key is rewritten. -/
theorem c5_cache_written_only_on_successful_fetch :
    (∀ (username : String) (cache : Option String) (outcome : NetOutcome)
        (scFails : Json → Bool) (k v : String),
      Ev.cacheWrite k v ∈ getRepos username cache outcome scFails →
      ∃ response repos kept, outcome = .load 200 response
        ∧ Json.parse response = some (.arr repos)
        ∧ filterRepos repos = some kept
        ∧ scFails (.arr (jsSort kept)) = false
        ∧ k = username ∧ v = Json.stringify (.arr (jsSort kept)))
    ∧ (∀ (username s : String) (j : Json) (outcome : NetOutcome)
        (scFails : Json → Bool), Json.parse s = some j → scFails j = false →
      getRepos username (some s) outcome scFails = [.success j]) := by
  constructor
  · intro username cache outcome scFails k v h
    cases cache with
    | none => exact cacheWrite_fetch _ _ _ _ _ h
    | some s =>
      simp only [getRepos] at h
      split at h
      · exact cacheWrite_fetch _ _ _ _ _ h
      · rename_i j hp
        by_cases hsc : scFails j = true
        · rw [if_pos hsc] at h
          rcases List.mem_cons.mp h with heq | h2
          · exact absurd heq (by simp)
          · exact cacheWrite_fetch _ _ _ _ _ h2
        · rw [if_neg hsc] at h
          simp at h
  · intro username s j outcome scFails hp hsc
    simp [getRepos, hp, hsc]

/-- Witness for C5: the successful-fetch clause instantiated at an actual
cache write, and the cache-hit clause at a cached `"null"`. -/
theorem c5_witness :
    (∃ response repos kept, (NetOutcome.load 200 "[]") = NetOutcome.load 200 response
      ∧ Json.parse response = some (.arr repos)
      ∧ filterRepos repos = some kept
      ∧ (fun (_ : Json) => false) (.arr (jsSort kept)) = false
      ∧ "liamnewmarch" = "liamnewmarch"
      ∧ "[]" = Json.stringify (.arr (jsSort kept)))
    ∧ getRepos "liamnewmarch" (some "null") .netError (fun _ => false)
      = [.success .null] :=
  ⟨c5_cache_written_only_on_successful_fetch.1 "liamnewmarch" none (.load 200 "[]")
      (fun _ => false) "liamnewmarch" "[]" (List.Mem.tail _ (List.Mem.head _)),
    c5_cache_written_only_on_successful_fetch.2 "liamnewmarch" "null" .null .netError
      (fun _ => false) rfl rfl⟩

/-- Claim C6 counterexample: on a successful fetch the code invokes the
success callback first (`successCallback(filtered)`, app.js:64) and only
then writes the cache (app.js:65) — the delivered trace places the success
event at index 0 and the cache write at index 1, so the write does not
happen before delivery; and with a throwing success callback the result is
delivered while the write is skipped entirely. -/
theorem c6_counterexample :
    fetchUserRepos "liamnewmarch" (.load 200 "[]") (fun _ => false)
      = [.success (.arr []), .cacheWrite "liamnewmarch" "[]"]
    ∧ fetchUserRepos "liamnewmarch" (.load 200 "[]") (fun _ => true)
      = [.success (.arr []), .error .callbackError] :=
  ⟨rfl, rfl⟩

/-- Claim C6 amended: on every successful fetch whose success callback
returns normally, the filtered list is delivered to the success callback
first and the serialised list is stored into the cache under the user
identifier immediately afterwards; a throwing success callback skips the
write. -/
theorem c6_success_callback_then_cache_write (username response : String)
    (repos kept : List Json) (scFails : Json → Bool)
    (hp : Json.parse response = some (.arr repos))
    (hf : filterRepos repos = some kept)
    (hsc : scFails (.arr (jsSort kept)) = false) :
    fetchUserRepos username (.load 200 response) scFails
      = [.success (.arr (jsSort kept)),
        .cacheWrite username (Json.stringify (.arr (jsSort kept)))] := by
  simp [fetchUserRepos, loadHandler, hp, asArr, hf, hsc]

/-- Witness for the amended C6 at a concrete successful fetch. -/
theorem c6_witness :
    fetchUserRepos "liamnewmarch" (.load 200 "[]") (fun _ => false)
      = [.success (.arr (jsSort [])),
        .cacheWrite "liamnewmarch" (Json.stringify (.arr (jsSort [])))] :=
  c6_success_callback_then_cache_write "liamnewmarch" "[]" [] [] (fun _ => false)
    rfl rfl rfl

/-- Claim C8: cache round trip — a successful fetch delivers the filtered
list and caches exactly its serialisation, and a later `getRepos` run that
finds this cached string parses it back and delivers an equal (deep-equal)
record list as its success result. -/
theorem c8_cache_round_trip (username username2 response : String)
    (repos kept : List Json) (scFails scFails2 : Json → Bool) (outcome2 : NetOutcome)
    (hp : Json.parse response = some (.arr repos))
    (hf : filterRepos repos = some kept)
    (hsc : scFails (.arr (jsSort kept)) = false)
    (hsc2 : scFails2 (.arr (jsSort kept)) = false) :
    fetchUserRepos username (.load 200 response) scFails
      = [.success (.arr (jsSort kept)),
        .cacheWrite username (Json.stringify (.arr (jsSort kept)))]
    ∧ getRepos username2 (some (Json.stringify (.arr (jsSort kept)))) outcome2 scFails2
      = [.success (.arr (jsSort kept))] := by
  constructor
  · simp [fetchUserRepos, loadHandler, hp, asArr, hf, hsc]
  · simp [getRepos, Json.parse_stringify, hsc2]

/-- Witness for C8 on a one-record response: the record delivered on the
second, cache-hit run is the very record of the first run. -/
theorem c8_witness :
    fetchUserRepos "liamnewmarch"
      (.load 200 "[\x7b\"name\":\"x\",\"has_pages\":true,\"updated_at\":\"2020-01-01\"\x7d]")
      (fun _ => false)
      = [.success (.arr (jsSort [recX])),
        .cacheWrite "liamnewmarch" (Json.stringify (.arr (jsSort [recX])))]
    ∧ getRepos "liamnewmarch" (some (Json.stringify (.arr (jsSort [recX])))) .netError
        (fun _ => false)
      = [.success (.arr (jsSort [recX]))] :=
  c8_cache_round_trip "liamnewmarch" "liamnewmarch"
    "[\x7b\"name\":\"x\",\"has_pages\":true,\"updated_at\":\"2020-01-01\"\x7d]"
    [recX] [recX] (fun _ => false) (fun _ => false) .netError rfl rfl rfl rfl

/-- Claim C9: on the successful-fetch path an exception thrown by the
caller's success callback is caught and routed to the error callback, so
one fetch invokes both callbacks, and the cache write — which comes after
the callback invocation inside the same `try` — is skipped. -/
theorem c9_throwing_success_callback_skips_cache (username response : String)
    (repos kept : List Json) (scFails : Json → Bool)
    (hp : Json.parse response = some (.arr repos))
    (hf : filterRepos repos = some kept)
    (hsc : scFails (.arr (jsSort kept)) = true) :
    fetchUserRepos username (.load 200 response) scFails
      = [.success (.arr (jsSort kept)), .error .callbackError]
    ∧ ∀ k v, Ev.cacheWrite k v ∉ fetchUserRepos username (.load 200 response) scFails := by
  have htr : fetchUserRepos username (.load 200 response) scFails
      = [.success (.arr (jsSort kept)), .error .callbackError] := by
    simp [fetchUserRepos, loadHandler, hp, asArr, hf, hsc]
  refine ⟨htr, ?_⟩
  intro k v hmem
  rw [htr] at hmem
  simp at hmem

/-- Witness for C9 at a concrete fetch with a throwing success callback. -/
theorem c9_witness :
    fetchUserRepos "liamnewmarch" (.load 200 "[]") (fun _ => true)
      = [.success (.arr (jsSort [])), .error .callbackError]
    ∧ Ev.cacheWrite "liamnewmarch" "[]"
      ∉ fetchUserRepos "liamnewmarch" (.load 200 "[]") (fun _ => true) :=
  ⟨(c9_throwing_success_callback_skips_cache "liamnewmarch" "[]" [] []
      (fun _ => true) rfl rfl rfl).1,
    (c9_throwing_success_callback_skips_cache "liamnewmarch" "[]" [] []
      (fun _ => true) rfl rfl rfl).2 "liamnewmarch" "[]"⟩

theorem word_not_ws {c : Char} (h : wordChar c = true) : wsChar c = false := by
  rcases hc : wsChar c with _ | _
  · rfl
  · exfalso
    simp only [wsChar, Bool.or_eq_true, decide_eq_true_eq] at hc
    rcases hc with ((rfl | rfl) | rfl) | rfl <;> exact absurd h (by decide)

theorem ws_not_word {c : Char} (h : wsChar c = true) : wordChar c = false := by
  simp only [wsChar, Bool.or_eq_true, decide_eq_true_eq] at h
  rcases h with ((rfl | rfl) | rfl) | rfl <;> decide

theorem dropWhile_append_all {p : Char → Bool} : ∀ (xs r : List Char),
    (∀ c ∈ xs, p c = true) → (xs ++ r).dropWhile p = r.dropWhile p := by
  intro xs
  induction xs with
  | nil => intro r _; rfl
  | cons x xs ih =>
    intro r h
    have hx : p x = true := h x (List.mem_cons_self _ _)
    rw [List.cons_append, List.dropWhile_cons, if_pos hx]
    exact ih r fun c hc => h c (List.mem_cons_of_mem _ hc)

theorem dropWhile_stop {p : Char → Bool} {c : Char} (r : List Char) (hc : p c = false) :
    (c :: r).dropWhile p = c :: r := by
  rw [List.dropWhile_cons, if_neg (by simp [hc])]

theorem takeWhile_append_stop {p : Char → Bool} : ∀ (xs : List Char) {y : Char}
    (r : List Char), (∀ c ∈ xs, p c = true) → p y = false →
    (xs ++ y :: r).takeWhile p = xs := by
  intro xs
  induction xs with
  | nil =>
    intro y r _ hy
    rw [List.nil_append, List.takeWhile_cons, if_neg (by simp [hy])]
  | cons x xs ih =>
    intro y r h hy
    have hx : p x = true := h x (List.mem_cons_self _ _)
    rw [List.cons_append, List.takeWhile_cons, if_pos hx]
    rw [ih r (fun c hc => h c (List.mem_cons_of_mem _ hc)) hy]

/-- One-token behaviour of the template matcher: a `\x7b\x7b ws key ws \x7d\x7d`
sequence is recognised, the key captured, and the whole match consumed. -/
theorem tryToken_token (ws1 ws2 key : String)
    (hk : key ≠ "") (hkey : ∀ c ∈ key.data, wordChar c = true)
    (hws1 : ∀ c ∈ ws1.data, wsChar c = true) (hws2 : ∀ c ∈ ws2.data, wsChar c = true) :
    tryToken ('\x7b' :: '\x7b' ::
        (ws1.data ++ (key.data ++ (ws2.data ++ ['\x7d', '\x7d']))))
      = some (key, []) := by
  obtain ⟨kc, kcs, hkd⟩ : ∃ kc kcs, key.data = kc :: kcs := by
    cases hkd : key.data with
    | nil =>
      exfalso
      apply hk
      cases key with
      | mk d => simp at hkd; rw [hkd]
    | cons kc kcs => exact ⟨kc, kcs, rfl⟩
  have hkc : wordChar kc = true := hkey kc (by rw [hkd]; exact List.mem_cons_self _ _)
  have hr1 : (ws1.data ++ (key.data ++ (ws2.data ++ ['\x7d', '\x7d']))).dropWhile wsChar
      = key.data ++ (ws2.data ++ ['\x7d', '\x7d']) := by
    rw [dropWhile_append_all ws1.data _ hws1, hkd, List.cons_append]
    rw [dropWhile_stop _ (word_not_ws hkc)]
  have hkey2 : (key.data ++ (ws2.data ++ ['\x7d', '\x7d'])).takeWhile wordChar
      = key.data := by
    cases hw2 : ws2.data with
    | nil =>
      rw [List.nil_append]
      exact takeWhile_append_stop key.data _ hkey (by decide)
    | cons w ws =>
      rw [List.cons_append]
      exact takeWhile_append_stop key.data _ hkey
        (ws_not_word (hws2 w (by rw [hw2]; exact List.mem_cons_self _ _)))
  have hdrop : (key.data ++ (ws2.data ++ ['\x7d', '\x7d'])).drop key.data.length
      = ws2.data ++ ['\x7d', '\x7d'] := List.drop_left _ _
  have hdrop2 : (ws2.data ++ ['\x7d', '\x7d']).dropWhile wsChar = ['\x7d', '\x7d'] := by
    rw [dropWhile_append_all ws2.data _ hws2]
    rfl
  simp only [tryToken, hr1, hkey2, hdrop, hdrop2]
  rw [hkd]
  simp only [List.isEmpty_cons, Bool.false_eq_true, if_false]
  rw [← hkd]

/-- Claim C7: the renderer replaces each `\x7b\x7b key \x7d\x7d` token
(optional surrounding whitespace, key a word of alphanumeric/underscore
characters) by the string form of `record[key]`, the empty string when
that field is absent, null or falsy; in particular the three example
renders of the specification hold. -/
theorem c7_render_substitutes_tokens :
    (∀ (ws1 ws2 key : String) (repo : Json),
      key ≠ "" → (∀ c ∈ key.data, wordChar c = true) →
      (∀ c ∈ ws1.data, wsChar c = true) → (∀ c ∈ ws2.data, wsChar c = true) →
      render ("\x7b\x7b" ++ ws1 ++ key ++ ws2 ++ "\x7d\x7d") repo = subst repo key)
    ∧ render "\x7b\x7bname\x7d\x7d" (.obj [("name", .str "foo")]) = "foo"
    ∧ render "\x7b\x7bmissing\x7d\x7d" (.obj []) = ""
    ∧ render "\x7b\x7b a \x7d\x7d and \x7b\x7bb\x7d\x7d"
        (.obj [("a", .str "x"), ("b", .str "y")]) = "x and y" := by
  refine ⟨?_, rfl, rfl, rfl⟩
  intro ws1 ws2 key repo hk hkey hws1 hws2
  have htok := tryToken_token ws1 ws2 key hk hkey hws1 hws2
  have hdata : ("\x7b\x7b" ++ ws1 ++ key ++ ws2 ++ "\x7d\x7d").data
      = '\x7b' :: '\x7b' ::
        (ws1.data ++ (key.data ++ (ws2.data ++ ['\x7d', '\x7d']))) := by
    simp [String.data_append]
  have hlen : ("\x7b\x7b" ++ ws1 ++ key ++ ws2 ++ "\x7d\x7d").length
      = (ws1.data ++ (key.data ++ (ws2.data ++ ['\x7d', '\x7d']))).length + 2 := by
    show ("\x7b\x7b" ++ ws1 ++ key ++ ws2 ++ "\x7d\x7d").data.length = _
    rw [hdata]
    simp
  unfold render
  rw [hdata, hlen]
  have hstep : renderAux repo
      ((ws1.data ++ (key.data ++ (ws2.data ++ ['\x7d', '\x7d']))).length + 2)
      ('\x7b' :: '\x7b' :: (ws1.data ++ (key.data ++ (ws2.data ++ ['\x7d', '\x7d']))))
      = (subst repo key).data := by
    simp only [renderAux, htok]
    simp [renderAux]
  rw [hstep]

/-- Witness for the universally quantified clause of C7 at a concrete
token with whitespace. -/
theorem c7_witness :
    render ("\x7b\x7b" ++ " " ++ "name" ++ " " ++ "\x7d\x7d")
        (.obj [("name", .str "foo")])
      = subst (.obj [("name", .str "foo")]) "name" :=
  c7_render_substitutes_tokens.1 " " " " "name" (.obj [("name", .str "foo")])
    (by decide) (by decide) (by decide) (by decide)

/-- Claim C10: on a cache hit, `getRepos` hands the parsed cached value to
the success callback exactly as parsed — no filter, no sort, no shape
validation — so any valid JSON (for example `"null"` or a non-array) is
delivered as the success result. -/
theorem c10_cache_hit_delivers_parsed_value (username s : String) (j : Json)
    (outcome : NetOutcome) (scFails : Json → Bool)
    (hp : Json.parse s = some j) :
    (∃ rest, getRepos username (some s) outcome scFails = .success j :: rest)
    ∧ (scFails j = false → getRepos username (some s) outcome scFails = [.success j]) := by
  constructor
  · by_cases hsc : scFails j = true
    · exact ⟨fetchUserRepos username outcome scFails, by simp [getRepos, hp, hsc]⟩
    · rw [Bool.not_eq_true] at hsc
      exact ⟨[], by simp [getRepos, hp, hsc]⟩
  · intro hsc
    simp [getRepos, hp, hsc]

/-- Witness for C10 at a cached `"null"`: the non-array value `null` is
delivered as the success result. -/
theorem c10_witness :
    (∃ rest, getRepos "liamnewmarch" (some "null") .netError (fun _ => false)
      = .success .null :: rest)
    ∧ ((fun (_ : Json) => false) .null = false →
      getRepos "liamnewmarch" (some "null") .netError (fun _ => false)
        = [.success .null]) :=
  c10_cache_hit_delivers_parsed_value "liamnewmarch" "null" .null .netError
    (fun _ => false) rfl

end GitHubPages
